import Mathlib

/-! A shallow embedding of `fsproxy.go` and `uppercasefs/uppercase.go` of fsproxy.

Conventions of the embedding.

* Go's `uint64` is a `Nat` reduced modulo `2 ^ 64` wherever the source does arithmetic on it
  (only `proxy.nextInode++`).
* Go's `map[string]uint64` is an association list without duplicate keys (`InodeMap`), with
  `mapGet` for `m[k]` (the comma-ok form) and `mapSet` for `m[k] = v`.  The length of a Go map
  is an `int`; where a statement depends on it, this bound (`maxInt`) is a hypothesis.
* A function with a `*Proxy` receiver or argument takes the current value of the pointee and
  returns its new value next to the Go results (state passing).  The mutex `lck` brackets the
  whole body of `inodeForPath`; in a sequential run it has no effect and is left out.
* The hook slots of a `Proxy` are functions over the other fields of the same `Proxy`
  (`ProxyState`), because a Lean structure cannot hold functions over itself.  The field `addr`
  stands for the address of the `Proxy` value: a node's `Proxy` back-pointer stores it.
* The operating system (`os.Open`, `Readdirnames`, `os.Stat`, `ioutil.ReadFile`) and the pure
  library functions `path.Join` and `strings.ToUpper` (beyond ASCII) are not part of the
  repository; they are the fields of a `Sys` parameter, so every theorem holds for all their
  behaviours.  No operation of the source writes to the file system, so a `Sys` is passed in
  and never returned.
* A Go result pair `(v, nil)` is `Except.ok v`, and `(nil, fuse.Errno(e))` is `Except.error e`.
  A call that ends the process (`os.Exit`, `log.Fatalf`) yields `none`.
* Printing and logging calls are left out.
-/

namespace FsProxy

/-! ## Data model -/

/-- File contents: a sequence of bytes, each a number below 256. -/
abbrev Bytes := List Nat

/-- Error numbers of `fuse.Errno`; the source only ever builds `ENOSYS`. -/
inductive Errno where
  | ENOSYS
  | errno (code : Nat)
  deriving DecidableEq, Repr

/-- Values of `fuse.DirentType`; `DT_Unknown` is the zero value. -/
inductive DirentType where
  | DT_Unknown
  | DT_Socket
  | DT_Link
  | DT_File
  | DT_Block
  | DT_Dir
  | DT_Char
  | DT_FIFO
  deriving DecidableEq, Repr

/-- Go's `os.FileMode`, a 32-bit set of flags. -/
abbrev FileMode := Nat

/-- The flag `os.ModeDir`, bit 31. -/
def ModeDir : FileMode := 2 ^ 31

/-- The octal literal `0555` of `DefaultLookup`. -/
def mode0555 : FileMode := 5 * 64 + 5 * 8 + 5

/-- The write bits `0222` of a permission mode. -/
def writeBits : FileMode := 2 * 64 + 2 * 8 + 2

/-- The two fields of `fuse.Attr` that the source sets; all others keep their zero value. -/
structure Attr where
  Inode : Nat
  Mode : FileMode
  deriving DecidableEq, Repr

/-- Entry of a directory listing, `fuse.Dirent` (`Typ` is the Go field `Type`). -/
structure Dirent where
  Inode : Nat
  Name : String
  Typ : DirentType
  deriving DecidableEq, Repr

/-- What `os.Stat` reports about a path, as far as the source looks at it. -/
structure FileInfo where
  IsDir : Bool
  deriving DecidableEq, Repr

/-- The cancellation channel `fs.Intr`: whether it has been closed. -/
abbrev Intr := Bool

/-- The system calls and library functions the source uses. -/
structure Sys where
  /-- Whether `os.Open path` yields a non-nil file. -/
  Open : String → Bool
  /-- Result of `file.Readdirnames(-1)` on the directory opened at a path; `none` is an error. -/
  Readdirnames : String → Option (List String)
  /-- Result of `os.Stat`; `none` is an error. -/
  Stat : String → Option FileInfo
  /-- Result of `ioutil.ReadFile`; `none` is an error. -/
  ReadFile : String → Option Bytes
  /-- The pure function `path.Join` on two elements. -/
  Join : String → String → String
  /-- The function `strings.ToUpper` on a byte string that is not pure ASCII. -/
  ToUpperNonASCII : Bytes → Bytes

/-- Go's `map[string]uint64`. -/
abbrev InodeMap := List (String × Nat)

/-- The lookup `v, ok := m[k]`: `none` when `ok` is false. -/
def mapGet : InodeMap → String → Option Nat
  | [], _ => none
  | (k', v) :: rest, k => if k' = k then some v else mapGet rest k

/-- The assignment `m[k] = v`: any earlier entry of `k` is replaced. -/
def mapSet (m : InodeMap) (k : String) (v : Nat) : InodeMap :=
  (k, v) :: m.filter (fun e => e.1 ≠ k)

/-- Address of a `Proxy` value, Go's `*Proxy` as a bare pointer. -/
abbrev ProxyPtr := Nat

/-- The fields of `Proxy` other than the hook slots and the mutex. -/
structure ProxyState where
  addr : ProxyPtr
  Mountpoint : String
  Source : String
  nextInode : Nat
  inodes : InodeMap
  deriving DecidableEq, Repr

/-- The struct `Directory`. -/
structure Directory where
  Proxy : ProxyPtr
  Path : String
  Name : String
  Attributes : Attr
  deriving DecidableEq, Repr

/-- The struct `File`. -/
structure File where
  Proxy : ProxyPtr
  Path : String
  Attributes : Attr
  deriving DecidableEq, Repr

/-- The struct `UpperCaseFile` of `uppercasefs`, which embeds `File`. -/
structure UpperCaseFile extends File
  deriving DecidableEq, Repr

/-- The dynamic types behind the interface `fs.Node` in this repository. -/
inductive Node where
  | Directory (dir : Directory)
  | File (file : File)
  | UpperCaseFile (file : UpperCaseFile)
  deriving DecidableEq, Repr

/-- Result of a hook call: `none` when the process ended inside the call, else the Go result
and the state of the `Proxy` after the call. -/
abbrev Outcome (α : Type) := Option (Except Errno α × ProxyState)

abbrev ListFunc := Sys → ProxyState → String → Outcome (List Dirent)
abbrev ReadAllFunc := Sys → ProxyState → String → Outcome Bytes
abbrev LookupFunc := Sys → ProxyState → String → Intr → Outcome Node

/-- The struct `Proxy`: the state fields and the three hook slots. -/
structure Proxy extends ProxyState where
  List : ListFunc
  Lookup : LookupFunc
  ReadAll : ReadAllFunc

/-! ## Operations of `fsproxy.go` -/

/-- The method `Proxy.inodeForPath`. -/
def inodeForPath (proxy : ProxyState) (path : String) : Nat × ProxyState :=
  match mapGet proxy.inodes path with
  | some result => (result, proxy)
  | none =>
    let next := (proxy.nextInode + 1) % 2 ^ 64
    (next, { proxy with nextInode := next, inodes := mapSet proxy.inodes path next })

/-- The function `dirAttrsForPath`. -/
def dirAttrsForPath (proxy : ProxyState) (path : String) : Attr × ProxyState :=
  let r := inodeForPath proxy path
  ({ Inode := r.1, Mode := ModeDir }, r.2)

/-- The loop of `DefaultList` over `files[j..]`, with `dirs` the entries appended so far. -/
def listLoop (sys : Sys) (path : String) :
    List String → ProxyState → List Dirent → Except Errno (List Dirent) × ProxyState
  | [], proxy, dirs => (Except.ok dirs, proxy)
  | name :: rest, proxy, dirs =>
    let filepath := sys.Join path name
    match sys.Stat filepath with
    | none => (Except.error Errno.ENOSYS, proxy)
    | some info =>
      let t := if info.IsDir then DirentType.DT_Dir else DirentType.DT_Unknown
      let r := inodeForPath proxy filepath
      listLoop sys path rest r.2 (dirs ++ [{ Inode := r.1, Name := name, Typ := t }])

/-- The hook `DefaultList`. -/
def DefaultList : ListFunc := fun sys proxy path =>
  if sys.Open path = false then none
  else
    match sys.Readdirnames path with
    | none => none
    | some files => some (listLoop sys path files proxy [])

/-- The hook `DefaultReadAll`. -/
def DefaultReadAll : ReadAllFunc := fun sys proxy path =>
  match sys.ReadFile path with
  | none => some (Except.error Errno.ENOSYS, proxy)
  | some bytes => some (Except.ok bytes, proxy)

/-- The hook `DefaultLookup`. -/
def DefaultLookup : LookupFunc := fun sys p path _intr =>
  match sys.Stat path with
  | none => some (Except.error Errno.ENOSYS, p)
  | some info =>
    if info.IsDir then
      let a := dirAttrsForPath p path
      some (Except.ok (Node.Directory
        { Proxy := p.addr, Path := path, Name := "", Attributes := a.1 }), a.2)
    else
      let r := inodeForPath p path
      some (Except.ok (Node.File
        { Proxy := p.addr, Path := path, Attributes := { Inode := r.1, Mode := mode0555 } }), r.2)

/-- The constructor `New`; `addr` is the address of the allocated value. -/
def New (addr : ProxyPtr) (mountpoint source : String) : Proxy :=
  { addr := addr
    Mountpoint := mountpoint
    Source := source
    List := DefaultList
    ReadAll := DefaultReadAll
    Lookup := DefaultLookup
    inodes := []
    nextInode := 10 }

/-- Writes the state a hook returned back into the `Proxy`. -/
def Proxy.withState (proxy : Proxy) (s : ProxyState) : Proxy :=
  { proxy with toProxyState := s }

/-- The method `Directory.ReadDir`; `proxy` is the current value of `*dir.Proxy`. -/
def Directory.ReadDir (sys : Sys) (proxy : FsProxy.Proxy) (dir : Directory) (_intr : Intr) :
    Option (Except Errno (List Dirent) × FsProxy.Proxy) :=
  (proxy.List sys proxy.toProxyState dir.Path).map fun r => (r.1, proxy.withState r.2)

/-- The method `Directory.Lookup`; `proxy` is the current value of `*dir.Proxy`. -/
def Directory.Lookup (sys : Sys) (proxy : FsProxy.Proxy) (dir : Directory) (path : String)
    (intr : Intr) : Option (Except Errno Node × FsProxy.Proxy) :=
  (proxy.Lookup sys proxy.toProxyState (sys.Join dir.Path path) intr).map
    fun r => (r.1, proxy.withState r.2)

/-- The method `File.ReadAll`. -/
def File.ReadAll (sys : Sys) (file : File) (_intr : Intr) : Except Errno Bytes :=
  match sys.ReadFile file.Path with
  | none => Except.error Errno.ENOSYS
  | some bytes => Except.ok bytes

/-- The method `Proxy.Directory`. -/
def Proxy.Directory (proxy : Proxy) (path : String) : Except Errno Node × Proxy :=
  let a := dirAttrsForPath proxy.toProxyState path
  (Except.ok (Node.Directory
    { Proxy := proxy.addr, Path := path, Name := "", Attributes := a.1 }),
   proxy.withState a.2)

/-- The method `Proxy.Root`. -/
def Proxy.Root (proxy : Proxy) : Except Errno Node × Proxy :=
  Proxy.Directory proxy proxy.Source

/-- The method `Directory.Attr`. -/
def Directory.Attr (dir : Directory) : Attr :=
  dir.Attributes

/-- The method `File.Attr`. -/
def File.Attr (file : File) : Attr :=
  file.Attributes

/-- The method `Attr` of the interface `fs.Node`; an `UpperCaseFile` has it from the `File`
it embeds. -/
def Node.Attr : Node → Attr
  | Node.Directory dir => Directory.Attr dir
  | Node.File file => File.Attr file
  | Node.UpperCaseFile file => File.Attr file.toFile

/-! ## Operations of `uppercasefs/uppercase.go` -/

/-- Upper case of one ASCII byte: the letters `a` to `z` move to `A` to `Z`. -/
def upperByte (b : Nat) : Nat :=
  if 97 ≤ b ∧ b ≤ 122 then b - 32 else b

/-- The conversion `[]byte(strings.ToUpper(string(bytes)))`: on pure ASCII the library maps
byte by byte. -/
def ToUpper (sys : Sys) (bytes : Bytes) : Bytes :=
  if bytes.all (fun b => b < 128) then bytes.map upperByte else sys.ToUpperNonASCII bytes

/-- The method `UpperCaseFile.ReadAll`. -/
def UpperCaseFile.ReadAll (sys : Sys) (file : UpperCaseFile) (_intr : Intr) :
    Except Errno Bytes :=
  match sys.ReadFile file.Path with
  | none => Except.error Errno.ENOSYS
  | some bytes => Except.ok (ToUpper sys bytes)

/-- State of the registry after the calls `inodeForPath p` for `p` in `calls`, in order. -/
def runCalls (proxy : ProxyState) (calls : List String) : ProxyState :=
  calls.foldl (fun s p => (inodeForPath s p).2) proxy

/-- The values the calls `inodeForPath p` for `p` in `calls` return, in order. -/
def callResults : ProxyState → List String → List Nat
  | _, [] => []
  | s, p :: rest => (inodeForPath s p).1 :: callResults (inodeForPath s p).2 rest

/-- Adds a path to a list of distinct paths unless it is there already. -/
def addSeen (seen : List String) (p : String) : List String :=
  if p ∈ seen then seen else seen ++ [p]

/-- The distinct paths of a call sequence, in the order of their first request. -/
def firstSeen (calls : List String) : List String :=
  calls.foldl addSeen []

/-- State of a `Proxy` made by `New` after the calls `inodeForPath p` for `p` in `calls`. -/
def afterCalls (addr : ProxyPtr) (mountpoint source : String) (calls : List String) :
    ProxyState :=
  runCalls (New addr mountpoint source).toProxyState calls

/-- The values that the calls `inodeForPath p` for `p` in `calls` return on a `Proxy` made by
`New`. -/
def resultsOfCalls (addr : ProxyPtr) (mountpoint source : String) (calls : List String) :
    List Nat :=
  callResults (New addr mountpoint source).toProxyState calls

/-- The largest value of Go's `int` on a 64-bit platform.  The length of a Go map is an `int`,
so a map of a running program never has more entries than this. -/
def maxInt : Nat := 2 ^ 63 - 1

/-- The registry `s` holds exactly the paths `seen`, numbered from 11 in the order of `seen`. -/
structure RegInv (s : ProxyState) (seen : List String) : Prop where
  nodup : seen.Nodup
  get : ∀ k p, seen[k]? = some p → mapGet s.inodes p = some ((11 + k) % 2 ^ 64)
  miss : ∀ p, p ∉ seen → mapGet s.inodes p = none
  len : s.inodes.length = seen.length
  next : s.nextInode = (10 + seen.length) % 2 ^ 64

/-! ## Concrete inputs -/

/-- The bytes of `hello`. -/
def hello : Bytes := [104, 101, 108, 108, 111]

/-- A file system holding the tree `/src/a.txt` (contents `hello`), `/src/sub/b.txt`. -/
def exampleSys : Sys where
  Open := fun p => decide (p ∈ ["/src", "/src/sub", "/src/a.txt", "/src/sub/b.txt"])
  Readdirnames := fun p =>
    if p = "/src" then some ["a.txt", "sub"]
    else if p = "/src/sub" then some ["b.txt"]
    else none
  Stat := fun p =>
    if p ∈ ["/src", "/src/sub"] then some { IsDir := true }
    else if p ∈ ["/src/a.txt", "/src/sub/b.txt"] then some { IsDir := false }
    else none
  ReadFile := fun p =>
    if p = "/src/a.txt" then some hello
    else if p = "/src/sub/b.txt" then some []
    else none
  Join := fun dir name => dir ++ "/" ++ name
  ToUpperNonASCII := fun bytes => bytes

/-- A file system whose directory `/src` lists the regular file `a.txt`, then `gone` (a link
to a missing target, so `os.Stat` fails on it), then the regular file `b.txt`. -/
def danglingSys : Sys where
  Open := fun p => decide (p ∈ ["/src", "/src/a.txt", "/src/b.txt"])
  Readdirnames := fun p => if p = "/src" then some ["a.txt", "gone", "b.txt"] else none
  Stat := fun p =>
    if p = "/src" then some { IsDir := true }
    else if p ∈ ["/src/a.txt", "/src/b.txt"] then some { IsDir := false }
    else none
  ReadFile := fun p => if p ∈ ["/src/a.txt", "/src/b.txt"] then some hello else none
  Join := fun dir name => dir ++ "/" ++ name
  ToUpperNonASCII := fun bytes => bytes

/-- A host hook for the slot `ReadAll` that hides every file's contents. -/
def redactReadAll : ReadAllFunc := fun _ proxy _ =>
  some (Except.ok [], proxy)

/-- A `Proxy` made by `New` at address 0 whose `ReadAll` slot holds `redactReadAll`. -/
def redactProxy : Proxy :=
  { New 0 "/mnt" "/src" with ReadAll := redactReadAll }

/-- The `File` node that `DefaultLookup` builds for `/src/a.txt` on `redactProxy`. -/
def aFile : File :=
  { Proxy := 0, Path := "/src/a.txt", Attributes := { Inode := 11, Mode := mode0555 } }

/-- The root node of `New 0 "/mnt" "/src"`, as `Root` returns it on first use. -/
def srcDir : Directory :=
  { Proxy := 0, Path := "/src", Name := "", Attributes := { Inode := 11, Mode := ModeDir } }

/-- The `Proxy` made by `New 0 "/mnt" "/src"` after `Root` has been called once. -/
def rootedProxy : Proxy :=
  (Proxy.Root (New 0 "/mnt" "/src")).2

/-! ## The map -/

theorem mapGet_filter_ne (m : InodeMap) (k k' : String) (h : k ≠ k') :
    mapGet (m.filter (fun e => e.1 ≠ k)) k' = mapGet m k' := by
  induction m with
  | nil => rfl
  | cons e rest ih =>
    obtain ⟨a, v⟩ := e
    by_cases ha : a = k
    · subst ha
      simp only [ne_eq, decide_not] at ih
      simp [List.filter_cons, mapGet, h, ih]
    · simp only [ne_eq, decide_not] at ih
      simp [List.filter_cons, mapGet, ha, ih]

theorem mapGet_mapSet (m : InodeMap) (k k' : String) (v : Nat) :
    mapGet (mapSet m k v) k' = if k = k' then some v else mapGet m k' := by
  unfold mapSet
  by_cases h : k = k'
  · simp [mapGet, h]
  · have hf := mapGet_filter_ne m k k' h
    simp only [ne_eq, decide_not] at hf
    simp [mapGet, h, hf]

theorem mapGet_none_keys (m : InodeMap) (k : String) (h : mapGet m k = none) :
    ∀ e ∈ m, e.1 ≠ k := by
  induction m with
  | nil => simp
  | cons e rest ih =>
    obtain ⟨a, v⟩ := e
    by_cases ha : a = k
    · simp [mapGet, ha] at h
    · simp only [mapGet, ha, if_false] at h
      intro e he
      rcases List.mem_cons.mp he with rfl | hr
      · exact ha
      · exact ih h e hr

theorem mapSet_fresh (m : InodeMap) (k : String) (v : Nat) (h : mapGet m k = none) :
    mapSet m k v = (k, v) :: m := by
  unfold mapSet
  congr 1
  apply List.filter_eq_self.mpr
  intro e he
  simpa using mapGet_none_keys m k h e he

/-! ## One registry call -/

theorem inodeForPath_known (s : ProxyState) (p : String) (v : Nat)
    (h : mapGet s.inodes p = some v) : inodeForPath s p = (v, s) := by
  simp [inodeForPath, h]

theorem inodeForPath_fresh (s : ProxyState) (p : String) (h : mapGet s.inodes p = none) :
    inodeForPath s p =
      ((s.nextInode + 1) % 2 ^ 64,
        { s with nextInode := (s.nextInode + 1) % 2 ^ 64,
                 inodes := (p, (s.nextInode + 1) % 2 ^ 64) :: s.inodes }) := by
  simp [inodeForPath, h, mapSet_fresh]

/-- After a call the map holds the returned value under the requested path. -/
theorem inodeForPath_get (s : ProxyState) (p : String) :
    mapGet (inodeForPath s p).2.inodes p = some (inodeForPath s p).1 := by
  cases h : mapGet s.inodes p with
  | some v => simp [inodeForPath_known s p v h, h]
  | none => simp [inodeForPath_fresh s p h, mapGet]

/-- A call keeps every entry the map already has. -/
theorem inodeForPath_keeps (s : ProxyState) (p q : String) (v : Nat)
    (h : mapGet s.inodes q = some v) : mapGet (inodeForPath s p).2.inodes q = some v := by
  cases hp : mapGet s.inodes p with
  | some w => simp [inodeForPath_known s p w hp, h]
  | none =>
    have hne : p ≠ q := by
      rintro rfl
      simp [hp] at h
    simp [inodeForPath_fresh s p hp, mapGet, hne, h]

theorem runCalls_cons (s : ProxyState) (p : String) (rest : List String) :
    runCalls s (p :: rest) = runCalls (inodeForPath s p).2 rest := rfl

theorem runCalls_append (s : ProxyState) (xs ys : List String) :
    runCalls s (xs ++ ys) = runCalls (runCalls s xs) ys := by
  simp [runCalls, List.foldl_append]

/-- A sequence of calls keeps every entry the map already has. -/
theorem runCalls_keeps (calls : List String) (s : ProxyState) (q : String) (v : Nat)
    (h : mapGet s.inodes q = some v) : mapGet (runCalls s calls).inodes q = some v := by
  induction calls generalizing s with
  | nil => exact h
  | cons p rest ih =>
    rw [runCalls_cons]
    exact ih _ (inodeForPath_keeps s p q v h)

/-- What a call returns is what the map holds under its path once all calls are done. -/
theorem callResults_get (calls : List String) (s : ProxyState) (i : Nat) (p : String)
    (h : calls[i]? = some p) :
    (callResults s calls)[i]? = mapGet (runCalls s calls).inodes p := by
  induction calls generalizing s i with
  | nil => simp at h
  | cons q rest ih =>
    cases i with
    | zero =>
      simp only [List.getElem?_cons_zero, Option.some.injEq] at h
      subst h
      simp only [callResults, List.getElem?_cons_zero, runCalls_cons]
      exact (runCalls_keeps rest _ q _ (inodeForPath_get s q)).symm
    | succ i =>
      simp only [List.getElem?_cons_succ] at h
      simp only [callResults, List.getElem?_cons_succ, runCalls_cons]
      exact ih _ i h

/-! ## The registry invariant -/

theorem regInv_New (addr : ProxyPtr) (mountpoint source : String) :
    RegInv (New addr mountpoint source).toProxyState [] where
  nodup := List.nodup_nil
  get := by simp
  miss := by simp [New, mapGet]
  len := rfl
  next := by simp [New]

theorem regInv_step (s : ProxyState) (seen : List String) (p : String) (h : RegInv s seen) :
    RegInv (inodeForPath s p).2 (addSeen seen p) := by
  by_cases hp : p ∈ seen
  · obtain ⟨k, hk⟩ := List.mem_iff_getElem?.mp hp
    rw [inodeForPath_known s p _ (h.get k p hk)]
    simpa [addSeen, hp] using h
  · have hnone := h.miss p hp
    rw [inodeForPath_fresh s p hnone]
    simp only [addSeen, hp, if_false]
    have hpow : (2 : Nat) ^ 64 = 18446744073709551616 := by norm_num
    refine ⟨?_, ?_, ?_, ?_, ?_⟩
    · exact List.Nodup.append h.nodup (List.nodup_singleton p) (by simpa using hp)
    · intro k q hq
      by_cases hk : k < seen.length
      · rw [List.getElem?_append_left hk] at hq
        have hne : p ≠ q := by
          rintro rfl
          exact hp (List.mem_iff_getElem?.mpr ⟨k, hq⟩)
        simpa [mapGet, hne] using h.get k q hq
      · have hk2 : seen.length ≤ k := Nat.le_of_not_lt hk
        rw [List.getElem?_append_right hk2] at hq
        have hk3 : k - seen.length = 0 := by
          by_contra hne
          obtain ⟨m, hm⟩ := Nat.exists_eq_succ_of_ne_zero hne
          rw [hm] at hq
          simp at hq
        rw [hk3] at hq
        simp only [List.getElem?_cons_zero, Option.some.injEq] at hq
        subst hq
        have hkeq : k = seen.length := by omega
        subst hkeq
        simp only [mapGet, if_true, h.next, hpow, Option.some.injEq]
        omega
    · intro q hq
      have hq1 : q ∉ seen := fun hmem => hq (List.mem_append_left _ hmem)
      have hq2 : p ≠ q := by
        rintro rfl
        exact hq (List.mem_append_right _ (List.mem_singleton_self _))
      simpa [mapGet, hq2] using h.miss q hq1
    · simp [h.len]
    · simp only [List.length_append, List.length_singleton, h.next, hpow]
      omega

theorem regInv_run (calls : List String) (s : ProxyState) (seen : List String)
    (h : RegInv s seen) : RegInv (runCalls s calls) (calls.foldl addSeen seen) := by
  induction calls generalizing s seen with
  | nil => exact h
  | cons p rest ih =>
    rw [runCalls_cons, List.foldl_cons]
    exact ih _ _ (regInv_step s seen p h)

/-- The registry invariant holds after any calls on a `Proxy` made by `New`. -/
theorem regInv_calls (addr : ProxyPtr) (mountpoint source : String) (calls : List String) :
    RegInv (runCalls (New addr mountpoint source).toProxyState calls) (firstSeen calls) :=
  regInv_run calls _ [] (regInv_New addr mountpoint source)

theorem mem_foldl_addSeen (calls seen : List String) (p : String) :
    p ∈ calls.foldl addSeen seen ↔ p ∈ seen ∨ p ∈ calls := by
  induction calls generalizing seen with
  | nil => simp
  | cons q rest ih =>
    rw [List.foldl_cons, ih]
    by_cases hq : q ∈ seen
    · simp only [addSeen, hq, if_true, List.mem_cons]
      constructor
      · rintro (h | h)
        · exact Or.inl h
        · exact Or.inr (Or.inr h)
      · rintro (h | rfl | h)
        · exact Or.inl h
        · exact Or.inl hq
        · exact Or.inr h
    · simp only [addSeen, hq, if_false, List.mem_append, List.mem_singleton, List.mem_cons]
      tauto

/-- The list `firstSeen calls` has the same members as `calls`. -/
theorem mem_firstSeen (calls : List String) (p : String) : p ∈ firstSeen calls ↔ p ∈ calls := by
  simp [firstSeen, mem_foldl_addSeen]

/-! ## The identifier registry (C1, C2, C7) -/

/-- C2: on a `Proxy` made by `New` and brought to any state by the calls `before`, the value
that `inodeForPath p` returns is returned again by a later `inodeForPath p`, whatever calls
`between` (for `p` or for other paths, in any order and number) are made in the meantime. -/
theorem inodeForPath_stable (addr : ProxyPtr) (mountpoint source : String)
    (before between : List String) (p : String) :
    (inodeForPath (runCalls (inodeForPath (afterCalls addr mountpoint source before) p).2
        between) p).1 =
      (inodeForPath (afterCalls addr mountpoint source before) p).1 := by
  have h := runCalls_keeps between _ p _
    (inodeForPath_get (afterCalls addr mountpoint source before) p)
  rw [inodeForPath_known _ p _ h]

/-- C1: on a `Proxy` made by `New`, in every sequence of `inodeForPath` calls (the map they
build is a Go map, so it has at most `maxInt` entries), two calls for different paths return
different identifiers.  Identifiers are 64-bit unsigned values; `New` seeds the counter with
10; a call for a path without an entry adds one to the counter (modulo `2 ^ 64`) and returns
the new counter value, and a call for a path with an entry leaves the counter as it is. -/
theorem inodeForPath_distinct (addr : ProxyPtr) (mountpoint source : String)
    (calls : List String)
    (hlen : (afterCalls addr mountpoint source calls).inodes.length ≤ maxInt)
    (i j : Nat) (p1 p2 : String) (v1 v2 : Nat)
    (hi : calls[i]? = some p1) (hj : calls[j]? = some p2)
    (hv1 : (resultsOfCalls addr mountpoint source calls)[i]? = some v1)
    (hv2 : (resultsOfCalls addr mountpoint source calls)[j]? = some v2)
    (hne : p1 ≠ p2) :
    v1 ≠ v2 ∧ v1 < 2 ^ 64 ∧ v2 < 2 ^ 64 ∧ (New addr mountpoint source).nextInode = 10 ∧
    (∀ p, mapGet (afterCalls addr mountpoint source calls).inodes p = none →
      (inodeForPath (afterCalls addr mountpoint source calls) p).1 =
        ((afterCalls addr mountpoint source calls).nextInode + 1) % 2 ^ 64 ∧
      (inodeForPath (afterCalls addr mountpoint source calls) p).2.nextInode =
        ((afterCalls addr mountpoint source calls).nextInode + 1) % 2 ^ 64) ∧
    (∀ p v, mapGet (afterCalls addr mountpoint source calls).inodes p = some v →
      (inodeForPath (afterCalls addr mountpoint source calls) p).2.nextInode =
        (afterCalls addr mountpoint source calls).nextInode) := by
  have hinv : RegInv (afterCalls addr mountpoint source calls) (firstSeen calls) :=
    regInv_calls addr mountpoint source calls
  have hm1 : p1 ∈ firstSeen calls :=
    (mem_firstSeen calls p1).mpr (List.mem_iff_getElem?.mpr ⟨i, hi⟩)
  have hm2 : p2 ∈ firstSeen calls :=
    (mem_firstSeen calls p2).mpr (List.mem_iff_getElem?.mpr ⟨j, hj⟩)
  obtain ⟨k1, hk1⟩ := List.mem_iff_getElem?.mp hm1
  obtain ⟨k2, hk2⟩ := List.mem_iff_getElem?.mp hm2
  have hb1 : k1 < (firstSeen calls).length := (List.getElem?_eq_some.mp hk1).1
  have hb2 : k2 < (firstSeen calls).length := (List.getElem?_eq_some.mp hk2).1
  have hcap : (firstSeen calls).length ≤ 9223372036854775807 := by
    have h63 : maxInt = 9223372036854775807 := by norm_num [maxInt]
    rw [← hinv.len, ← h63]
    exact hlen
  unfold resultsOfCalls at hv1 hv2
  rw [callResults_get calls _ i p1 hi] at hv1
  rw [callResults_get calls _ j p2 hj] at hv2
  have hg1 := hinv.get k1 p1 hk1
  have hg2 := hinv.get k2 p2 hk2
  unfold afterCalls at hg1 hg2
  rw [hg1] at hv1
  rw [hg2] at hv2
  have hkne : k1 ≠ k2 := by
    rintro rfl
    rw [hk1] at hk2
    exact hne (Option.some.inj hk2)
  have hpow : (2 : Nat) ^ 64 = 18446744073709551616 := by norm_num
  rw [hpow] at hv1 hv2
  have e1 := Option.some.inj hv1
  have e2 := Option.some.inj hv2
  refine ⟨?_, ?_, ?_, rfl, ?_, ?_⟩
  · omega
  · rw [hpow]
    omega
  · rw [hpow]
    omega
  · intro p hp
    rw [inodeForPath_fresh _ p hp]
    exact ⟨rfl, rfl⟩
  · intro p v hp
    rw [inodeForPath_known _ p v hp]

/-- Witness of `inodeForPath_distinct`: the calls for `/src/a.txt`, `/src/sub`, `/src/a.txt`
return 11, 12, 11; the map then has two entries, and the first two results differ. -/
theorem inodeForPath_distinct_witness :
    (resultsOfCalls 0 "/mnt" "/src" ["/src/a.txt", "/src/sub", "/src/a.txt"]) = [11, 12, 11] ∧
    (afterCalls 0 "/mnt" "/src" ["/src/a.txt", "/src/sub", "/src/a.txt"]).inodes.length = 2 ∧
    (11 : Nat) ≠ 12 :=
  ⟨by decide, by decide,
   (inodeForPath_distinct 0 "/mnt" "/src" ["/src/a.txt", "/src/sub", "/src/a.txt"]
     (by decide) 0 1 "/src/a.txt" "/src/sub" 11 12 (by decide) (by decide) (by decide)
     (by decide) (by decide)).1⟩

/-- C7: on a `Proxy` made by `New`, after any calls that request `n < 2 ^ 64 - 10` distinct
paths: the `(k + 1)`-th distinct path in order of first request holds `10 + (k + 1)`; the map
has an entry exactly for the requested paths; `nextInode` is `10 + n` and the map has `n`
entries; the identifiers in use are exactly 11, ..., `10 + n`; no identifier is held by two
paths; a call for a known path returns its identifier and changes nothing; a call for an
unknown path stores the returned value under that path, adds one entry and leaves the entry
of every other path as it was; and later calls never change or remove an entry. -/
theorem registry_allocation (addr : ProxyPtr) (mountpoint source : String)
    (calls : List String) (hn : (firstSeen calls).length < 2 ^ 64 - 10) :
    (∀ k p, (firstSeen calls)[k]? = some p →
      mapGet (afterCalls addr mountpoint source calls).inodes p = some (10 + (k + 1))) ∧
    (∀ p, mapGet (afterCalls addr mountpoint source calls).inodes p ≠ none ↔ p ∈ calls) ∧
    (afterCalls addr mountpoint source calls).nextInode = 10 + (firstSeen calls).length ∧
    (afterCalls addr mountpoint source calls).inodes.length = (firstSeen calls).length ∧
    (∀ v, (∃ p, mapGet (afterCalls addr mountpoint source calls).inodes p = some v) ↔
      (11 ≤ v ∧ v ≤ 10 + (firstSeen calls).length)) ∧
    (∀ p q v, mapGet (afterCalls addr mountpoint source calls).inodes p = some v →
      mapGet (afterCalls addr mountpoint source calls).inodes q = some v → p = q) ∧
    (∀ p v, mapGet (afterCalls addr mountpoint source calls).inodes p = some v →
      inodeForPath (afterCalls addr mountpoint source calls) p =
        (v, afterCalls addr mountpoint source calls)) ∧
    (∀ p, mapGet (afterCalls addr mountpoint source calls).inodes p = none →
      mapGet (inodeForPath (afterCalls addr mountpoint source calls) p).2.inodes p =
        some (inodeForPath (afterCalls addr mountpoint source calls) p).1 ∧
      (inodeForPath (afterCalls addr mountpoint source calls) p).2.inodes.length =
        (firstSeen calls).length + 1 ∧
      ∀ q, q ≠ p →
        mapGet (inodeForPath (afterCalls addr mountpoint source calls) p).2.inodes q =
          mapGet (afterCalls addr mountpoint source calls).inodes q) ∧
    (∀ more q v, mapGet (afterCalls addr mountpoint source calls).inodes q = some v →
      mapGet (runCalls (afterCalls addr mountpoint source calls) more).inodes q = some v) := by
  have hinv : RegInv (afterCalls addr mountpoint source calls) (firstSeen calls) :=
    regInv_calls addr mountpoint source calls
  have hpow : (2 : Nat) ^ 64 = 18446744073709551616 := by norm_num
  rw [hpow] at hn
  have hval : ∀ k p, (firstSeen calls)[k]? = some p →
      mapGet (afterCalls addr mountpoint source calls).inodes p = some (10 + (k + 1)) := by
    intro k p hk
    have hb : k < (firstSeen calls).length := (List.getElem?_eq_some.mp hk).1
    rw [hinv.get k p hk, hpow]
    congr 1
    omega
  have hmem : ∀ p v, mapGet (afterCalls addr mountpoint source calls).inodes p = some v →
      ∃ k : Nat, (firstSeen calls)[k]? = some p := by
    intro p v hp
    by_contra hno
    have hnot : p ∉ firstSeen calls := fun hm => hno (List.mem_iff_getElem?.mp hm)
    rw [hinv.miss p hnot] at hp
    exact Option.noConfusion hp
  refine ⟨hval, ?_, ?_, hinv.len, ?_, ?_, ?_, ?_, ?_⟩
  · intro p
    constructor
    · intro hp
      by_contra hno
      exact hp (hinv.miss p (fun hm => hno ((mem_firstSeen calls p).mp hm)))
    · intro hp
      obtain ⟨k, hk⟩ := List.mem_iff_getElem?.mp ((mem_firstSeen calls p).mpr hp)
      rw [hval k p hk]
      exact Option.some_ne_none _
  · rw [hinv.next, hpow]
    omega
  · intro v
    constructor
    · rintro ⟨p, hp⟩
      obtain ⟨k, hk⟩ := hmem p v hp
      have hb : k < (firstSeen calls).length := (List.getElem?_eq_some.mp hk).1
      rw [hval k p hk] at hp
      have := Option.some.inj hp
      omega
    · rintro ⟨h1, h2⟩
      have hb : v - 11 < (firstSeen calls).length := by omega
      refine ⟨(firstSeen calls)[v - 11], ?_⟩
      rw [hval (v - 11) _ (List.getElem?_eq_getElem hb)]
      congr 1
      omega
  · intro p q v hp hq
    obtain ⟨k1, hk1⟩ := hmem p v hp
    obtain ⟨k2, hk2⟩ := hmem q v hq
    rw [hval k1 p hk1] at hp
    rw [hval k2 q hk2] at hq
    have e1 := Option.some.inj hp
    have e2 := Option.some.inj hq
    have hk : k1 = k2 := by omega
    subst hk
    rw [hk1] at hk2
    exact Option.some.inj hk2
  · intro p v hp
    exact inodeForPath_known _ p v hp
  · intro p hp
    refine ⟨inodeForPath_get _ p, ?_, ?_⟩
    · rw [inodeForPath_fresh _ p hp]
      simp [hinv.len]
    · intro q hq
      rw [inodeForPath_fresh _ p hp]
      simp [mapGet, Ne.symm hq]
  · intro more q v hq
    exact runCalls_keeps more _ q v hq

/-- Witness of `registry_allocation`: after the calls for `/src/a.txt`, `/src/sub`,
`/src/a.txt` there are two distinct paths and the counter is 12. -/
theorem registry_allocation_witness :
    firstSeen ["/src/a.txt", "/src/sub", "/src/a.txt"] = ["/src/a.txt", "/src/sub"] ∧
    (firstSeen ["/src/a.txt", "/src/sub", "/src/a.txt"]).length < 2 ^ 64 - 10 ∧
    (afterCalls 0 "/mnt" "/src" ["/src/a.txt", "/src/sub", "/src/a.txt"]).nextInode =
      10 + (firstSeen ["/src/a.txt", "/src/sub", "/src/a.txt"]).length :=
  ⟨by decide, by decide,
   (registry_allocation 0 "/mnt" "/src" ["/src/a.txt", "/src/sub", "/src/a.txt"]
     (by decide)).2.2.1⟩

/-! ## The directory scan -/

/-- Calls for paths other than `q` leave `q` without an entry when it had none. -/
theorem runCalls_untouched (calls : List String) (s : ProxyState) (q : String)
    (h : mapGet s.inodes q = none) (hq : q ∉ calls) :
    mapGet (runCalls s calls).inodes q = none := by
  induction calls generalizing s with
  | nil => exact h
  | cons p rest ih =>
    rw [runCalls_cons]
    have hpq : p ≠ q := fun e => hq (e ▸ List.mem_cons_self p rest)
    have hrest : q ∉ rest := fun hm => hq (List.mem_cons_of_mem p hm)
    apply ih _ _ hrest
    cases hp : mapGet s.inodes p with
    | some w => simpa [inodeForPath_known s p w hp] using h
    | none => simpa [inodeForPath_fresh s p hp, mapGet, hpq] using h

/-- The value a call returns is returned again after any further calls. -/
theorem inodeForPath_after (s : ProxyState) (p : String) (more : List String) :
    (inodeForPath (runCalls (inodeForPath s p).2 more) p).1 = (inodeForPath s p).1 := by
  rw [inodeForPath_known _ p _ (runCalls_keeps more _ p _ (inodeForPath_get s p))]

/-- The scan over names that all stat successfully: one entry per name, in order, and the
registry has been asked for each joined path in turn. -/
theorem listLoop_ok (sys : Sys) (path : String) (names : List String) (proxy : ProxyState)
    (dirs : List Dirent) (hstat : ∀ n ∈ names, sys.Stat (sys.Join path n) ≠ none) :
    listLoop sys path names proxy dirs =
      (Except.ok (dirs ++ names.map fun n =>
          { Inode := (inodeForPath (runCalls proxy (names.map (sys.Join path)))
              (sys.Join path n)).1
            Name := n
            Typ := if sys.Stat (sys.Join path n) = some { IsDir := true }
              then DirentType.DT_Dir else DirentType.DT_Unknown }),
        runCalls proxy (names.map (sys.Join path))) := by
  induction names generalizing proxy dirs with
  | nil => simp [listLoop, runCalls]
  | cons n rest ih =>
    have hn := hstat n (List.mem_cons_self n rest)
    have hrest : ∀ m ∈ rest, sys.Stat (sys.Join path m) ≠ none :=
      fun m hm => hstat m (List.mem_cons_of_mem n hm)
    cases hs : sys.Stat (sys.Join path n) with
    | none => exact absurd hs hn
    | some info =>
      obtain ⟨isDir⟩ := info
      simp only [listLoop, hs, List.map_cons, runCalls_cons]
      rw [ih _ _ hrest, inodeForPath_after]
      cases isDir <;> simp

/-- The scan stops at the first name whose stat fails. -/
theorem listLoop_stat_failure (sys : Sys) (path : String) (pre : List String) (bad : String)
    (post : List String) (proxy : ProxyState) (dirs : List Dirent)
    (hpre : ∀ n ∈ pre, sys.Stat (sys.Join path n) ≠ none)
    (hbad : sys.Stat (sys.Join path bad) = none) :
    listLoop sys path (pre ++ bad :: post) proxy dirs =
      (Except.error Errno.ENOSYS, runCalls proxy (pre.map (sys.Join path))) := by
  induction pre generalizing proxy dirs with
  | nil => simp [listLoop, hbad, runCalls]
  | cons n rest ih =>
    have hn := hpre n (List.mem_cons_self n rest)
    have hrest : ∀ m ∈ rest, sys.Stat (sys.Join path m) ≠ none :=
      fun m hm => hpre m (List.mem_cons_of_mem n hm)
    cases hs : sys.Stat (sys.Join path n) with
    | none => exact absurd hs hn
    | some info =>
      simp only [List.cons_append, listLoop, hs, List.map_cons, runCalls_cons]
      exact ih _ _ hrest

/-- The scan keeps every entry the map already has. -/
theorem listLoop_keeps (sys : Sys) (path : String) (names : List String) (proxy : ProxyState)
    (dirs : List Dirent) (q : String) (v : Nat) (h : mapGet proxy.inodes q = some v) :
    mapGet (listLoop sys path names proxy dirs).2.inodes q = some v := by
  induction names generalizing proxy dirs with
  | nil => simpa [listLoop] using h
  | cons n rest ih =>
    cases hs : sys.Stat (sys.Join path n) with
    | none => simpa [listLoop, hs] using h
    | some info =>
      simp only [listLoop, hs]
      exact ih _ _ (inodeForPath_keeps proxy _ q v h)

/-- Every entry of a successful scan carries the identifier that the registry holds, once
the scan is over, for the entry's joined path. -/
theorem listLoop_inodes (sys : Sys) (path : String) (names : List String) (proxy : ProxyState)
    (dirs entries : List Dirent) (final : ProxyState)
    (hdirs : ∀ e ∈ dirs, mapGet proxy.inodes (sys.Join path e.Name) = some e.Inode)
    (h : listLoop sys path names proxy dirs = (Except.ok entries, final)) :
    ∀ e ∈ entries, mapGet final.inodes (sys.Join path e.Name) = some e.Inode := by
  induction names generalizing proxy dirs with
  | nil =>
    simp only [listLoop, Prod.mk.injEq, Except.ok.injEq] at h
    obtain ⟨h1, h2⟩ := h
    subst h1 h2
    exact hdirs
  | cons n rest ih =>
    cases hs : sys.Stat (sys.Join path n) with
    | none => simp [listLoop, hs] at h
    | some info =>
      simp only [listLoop, hs] at h
      refine ih _ _ ?_ h
      intro e he
      rcases List.mem_append.mp he with hold | hnew
      · exact inodeForPath_keeps proxy _ _ _ (hdirs e hold)
      · rw [List.mem_singleton] at hnew
        subst hnew
        exact inodeForPath_get proxy _

/-! ## Listing (C6, C4) -/

/-- C6: when the directory `path` opens, its children are `names` and each of them stats,
`DefaultList` returns no error and one entry per child, in the order of `names`: the entry of
child `n` has `Name = n`, `Typ = DT_Dir` exactly when `path.Join path n` is a directory and
the zero type `DT_Unknown` otherwise, and as `Inode` the identifier that `inodeForPath` gives
for `path.Join path n`; the registry has been asked for the joined paths in order. -/
theorem DefaultList_entries (sys : Sys) (proxy : ProxyState) (path : String)
    (names : List String) (hopen : sys.Open path = true)
    (hnames : sys.Readdirnames path = some names)
    (hstat : ∀ n ∈ names, sys.Stat (sys.Join path n) ≠ none) :
    DefaultList sys proxy path =
      some (Except.ok (names.map fun n =>
          { Inode := (inodeForPath (runCalls proxy (names.map (sys.Join path)))
              (sys.Join path n)).1
            Name := n
            Typ := if sys.Stat (sys.Join path n) = some { IsDir := true }
              then DirentType.DT_Dir else DirentType.DT_Unknown }),
        runCalls proxy (names.map (sys.Join path))) := by
  have h := listLoop_ok sys path names proxy [] hstat
  simp only [List.nil_append] at h
  simp [DefaultList, hopen, hnames, h]

/-- Witness of `DefaultList_entries`: in the tree `/src/a.txt`, `/src/sub/b.txt`, listing
`/src` on a new `Proxy` yields `a.txt` (identifier 11, not a directory) and `sub`
(identifier 12, a directory). -/
theorem DefaultList_entries_witness :
    DefaultList exampleSys (New 0 "/mnt" "/src").toProxyState "/src" =
      some (Except.ok
          [{ Inode := 11, Name := "a.txt", Typ := DirentType.DT_Unknown },
           { Inode := 12, Name := "sub", Typ := DirentType.DT_Dir }],
        afterCalls 0 "/mnt" "/src" ["/src/a.txt", "/src/sub"]) :=
  (DefaultList_entries exampleSys (New 0 "/mnt" "/src").toProxyState "/src" ["a.txt", "sub"]
    rfl rfl (by decide)).trans rfl

/-- C4, as stated, fails: in a directory listing `a.txt`, `gone`, `b.txt` where stat fails on
`gone`, `DefaultList` returns `ENOSYS` and the registry afterwards holds an identifier for
`/src/a.txt` only; `b.txt`, which follows the failing entry, has been given none. -/
theorem DefaultList_skips_rest_after_failure :
    danglingSys.Readdirnames "/src" = some ["a.txt", "gone", "b.txt"] ∧
    danglingSys.Stat "/src/gone" = none ∧
    danglingSys.Stat "/src/b.txt" = some { IsDir := false } ∧
    (DefaultList danglingSys (New 0 "/mnt" "/src").toProxyState "/src").map Prod.fst =
      some (Except.error Errno.ENOSYS) ∧
    (DefaultList danglingSys (New 0 "/mnt" "/src").toProxyState "/src").map
      (fun r => r.2.inodes) = some [("/src/a.txt", 11)] ∧
    (DefaultList danglingSys (New 0 "/mnt" "/src").toProxyState "/src").map
      (fun r => mapGet r.2.inodes "/src/b.txt") = some none :=
  ⟨rfl, rfl, rfl, rfl, rfl, rfl⟩

/-- C4, amended: when the directory `path` opens and its children are `pre`, then `bad`, then
`post`, where every child in `pre` stats and stat fails on `bad`, `DefaultList` returns the
`ENOSYS` error and no entries, and the scan has stopped at `bad`: the registry has been asked
for the joined paths of `pre` only, so each of them has an identifier, and a path that had no
identifier before the call and is not the joined path of a child in `pre` has none after. -/
theorem DefaultList_stat_failure (sys : Sys) (proxy : ProxyState) (path : String)
    (pre : List String) (bad : String) (post : List String)
    (hopen : sys.Open path = true)
    (hnames : sys.Readdirnames path = some (pre ++ bad :: post))
    (hpre : ∀ n ∈ pre, sys.Stat (sys.Join path n) ≠ none)
    (hbad : sys.Stat (sys.Join path bad) = none) :
    DefaultList sys proxy path =
      some (Except.error Errno.ENOSYS, runCalls proxy (pre.map (sys.Join path))) ∧
    (∀ n ∈ pre,
      mapGet (runCalls proxy (pre.map (sys.Join path))).inodes (sys.Join path n) ≠ none) ∧
    (∀ q, mapGet proxy.inodes q = none → q ∉ pre.map (sys.Join path) →
      mapGet (runCalls proxy (pre.map (sys.Join path))).inodes q = none) := by
  refine ⟨?_, ?_, ?_⟩
  · simp [DefaultList, hopen, hnames, listLoop_stat_failure sys path pre bad post proxy [] hpre hbad]
  · intro n hn
    obtain ⟨l1, l2, rfl⟩ := List.append_of_mem hn
    rw [List.map_append, List.map_cons, runCalls_append, runCalls_cons]
    have hkeep := runCalls_keeps (l2.map (sys.Join path)) _ (sys.Join path n) _
      (inodeForPath_get (runCalls proxy (l1.map (sys.Join path))) (sys.Join path n))
    rw [hkeep]
    exact Option.some_ne_none _
  · intro q hq hnot
    exact runCalls_untouched _ proxy q hq hnot

/-- Witness of `DefaultList_stat_failure`: the directory `/src` of `danglingSys` with
`pre = [a.txt]`, `bad = gone`, `post = [b.txt]`. -/
theorem DefaultList_stat_failure_witness :
    DefaultList danglingSys (New 0 "/mnt" "/src").toProxyState "/src" =
      some (Except.error Errno.ENOSYS,
        runCalls (New 0 "/mnt" "/src").toProxyState (["a.txt"].map (danglingSys.Join "/src"))) :=
  (DefaultList_stat_failure danglingSys (New 0 "/mnt" "/src").toProxyState "/src"
    ["a.txt"] "gone" ["b.txt"] rfl rfl (by decide) rfl).1

/-! ## Lookup (C5) -/

/-- C5: `DefaultLookup` is decided by `os.Stat path` alone, whatever the cancellation token.
If stat fails, it returns `ENOSYS` with no node and leaves the `Proxy` as it was.  If stat
reports a directory, it returns a `Directory` with `Proxy = p`, `Path = path`,
`Mode = os.ModeDir` and the identifier of `inodeForPath path`.  Otherwise it returns a `File`
with `Proxy = p`, `Path = path`, `Mode = 0555`, which has no write bit, and the identifier of
`inodeForPath path`.  It always returns. -/
theorem DefaultLookup_by_stat (sys : Sys) (p : ProxyState) (path : String) (intr : Intr) :
    (sys.Stat path = none →
      DefaultLookup sys p path intr = some (Except.error Errno.ENOSYS, p)) ∧
    (sys.Stat path = some { IsDir := true } →
      DefaultLookup sys p path intr =
        some (Except.ok (Node.Directory
          { Proxy := p.addr, Path := path, Name := "",
            Attributes := { Inode := (inodeForPath p path).1, Mode := ModeDir } }),
          (inodeForPath p path).2)) ∧
    (sys.Stat path = some { IsDir := false } →
      DefaultLookup sys p path intr =
        some (Except.ok (Node.File
          { Proxy := p.addr, Path := path,
            Attributes := { Inode := (inodeForPath p path).1, Mode := mode0555 } }),
          (inodeForPath p path).2)) ∧
    Nat.land mode0555 writeBits = 0 ∧
    DefaultLookup sys p path intr ≠ none ∧
    (∀ (sys2 : Sys) (intr2 : Intr), sys2.Stat path = sys.Stat path →
      DefaultLookup sys2 p path intr2 = DefaultLookup sys p path intr) := by
  refine ⟨?_, ?_, ?_, by decide, ?_, ?_⟩
  · intro h
    simp [DefaultLookup, h]
  · intro h
    simp [DefaultLookup, h, dirAttrsForPath]
  · intro h
    simp [DefaultLookup, h]
  · cases h : sys.Stat path with
    | none => simp [DefaultLookup, h]
    | some info =>
      obtain ⟨isDir⟩ := info
      cases isDir <;> simp [DefaultLookup, h]
  · intro sys2 intr2 h
    simp [DefaultLookup, h]

/-- Witness of `DefaultLookup_by_stat`: in the example tree, a lookup of the missing path
`/src/none` fails with `ENOSYS`, and a lookup of `/src/sub` returns a directory node with
identifier 11. -/
theorem DefaultLookup_by_stat_witness :
    DefaultLookup exampleSys (New 0 "/mnt" "/src").toProxyState "/src/none" false =
      some (Except.error Errno.ENOSYS, (New 0 "/mnt" "/src").toProxyState) ∧
    DefaultLookup exampleSys (New 0 "/mnt" "/src").toProxyState "/src/sub" false =
      some (Except.ok (Node.Directory
        { Proxy := 0, Path := "/src/sub", Name := "",
          Attributes := { Inode := 11, Mode := ModeDir } }),
        afterCalls 0 "/mnt" "/src" ["/src/sub"]) :=
  ⟨(DefaultLookup_by_stat exampleSys (New 0 "/mnt" "/src").toProxyState "/src/none" false).1
      rfl,
   ((DefaultLookup_by_stat exampleSys (New 0 "/mnt" "/src").toProxyState "/src/sub"
      false).2.1 rfl).trans rfl⟩

/-! ## Reading (C3, C8) -/

/-- C3 at a failing input: on a `Proxy` whose `ReadAll` slot holds the host hook
`redactReadAll`, the `File` node that `DefaultLookup` returns for `/src/a.txt` points to that
`Proxy`, the hook returns no bytes for the node's path, and yet `File.ReadAll` returns the
contents `hello` of the file: it reads the file itself and never calls the hook. -/
theorem File_ReadAll_bypasses_hook :
    (DefaultLookup exampleSys redactProxy.toProxyState "/src/a.txt" false).map Prod.fst =
      some (Except.ok (Node.File aFile)) ∧
    aFile.Proxy = redactProxy.addr ∧
    (redactProxy.ReadAll exampleSys redactProxy.toProxyState aFile.Path).map Prod.fst =
      some (Except.ok []) ∧
    File.ReadAll exampleSys aFile false = Except.ok hello :=
  ⟨rfl, rfl, rfl, rfl⟩

/-- A successful `DefaultLookup` returns a node whose identifier is the one that
`inodeForPath` gives for the path, and leaves the registry in the state after that call. -/
theorem DefaultLookup_inode (sys : Sys) (p : ProxyState) (path : String) (intr : Intr)
    (node : Node) (p2 : ProxyState)
    (h : DefaultLookup sys p path intr = some (Except.ok node, p2)) :
    (Node.Attr node).Inode = (inodeForPath p path).1 ∧ p2 = (inodeForPath p path).2 := by
  cases hs : sys.Stat path with
  | none => simp [DefaultLookup, hs] at h
  | some info =>
    obtain ⟨isDir⟩ := info
    cases isDir with
    | false =>
      simp only [DefaultLookup, hs] at h
      simp only [Bool.false_eq_true, if_false, Option.some.injEq, Prod.mk.injEq,
        Except.ok.injEq] at h
      obtain ⟨h1, h2⟩ := h
      subst h1 h2
      exact ⟨rfl, rfl⟩
    | true =>
      simp only [DefaultLookup, hs, dirAttrsForPath] at h
      simp only [if_true, Option.some.injEq, Prod.mk.injEq, Except.ok.injEq] at h
      obtain ⟨h1, h2⟩ := h
      subst h1 h2
      exact ⟨rfl, rfl⟩

/-- A successful `DefaultList` is a successful scan of some list of names. -/
theorem DefaultList_ok (sys : Sys) (p : ProxyState) (path : String) (entries : List Dirent)
    (p2 : ProxyState) (h : DefaultList sys p path = some (Except.ok entries, p2)) :
    ∃ names, listLoop sys path names p [] = (Except.ok entries, p2) := by
  unfold DefaultList at h
  cases ho : sys.Open path with
  | false => simp [ho] at h
  | true =>
    cases hr : sys.Readdirnames path with
    | none => simp [ho, hr] at h
    | some names =>
      simp only [ho, hr, Bool.true_eq_false, if_false, Option.some.injEq] at h
      exact ⟨names, h⟩

/-- With the default `Lookup` hook, `Directory.Lookup` of a child that stats returns a node
with the identifier that `inodeForPath` gives for the joined path. -/
theorem Directory_Lookup_default (sys : Sys) (proxy : Proxy) (d : Directory) (n : String)
    (intr : Intr) (hLookup : proxy.Lookup = DefaultLookup)
    (hstat : sys.Stat (sys.Join d.Path n) ≠ none) :
    ∃ node : Node,
      Directory.Lookup sys proxy d n intr =
        some (Except.ok node,
          proxy.withState (inodeForPath proxy.toProxyState (sys.Join d.Path n)).2) ∧
      (Node.Attr node).Inode = (inodeForPath proxy.toProxyState (sys.Join d.Path n)).1 := by
  cases hs : sys.Stat (sys.Join d.Path n) with
  | none => exact absurd hs hstat
  | some info =>
    obtain ⟨isDir⟩ := info
    cases isDir with
    | false =>
      refine ⟨Node.File (File.mk proxy.addr (sys.Join d.Path n)
        (Attr.mk (inodeForPath proxy.toProxyState (sys.Join d.Path n)).1 mode0555)), ?_, rfl⟩
      simp [Directory.Lookup, hLookup, DefaultLookup, hs]
    | true =>
      refine ⟨Node.Directory (Directory.mk proxy.addr (sys.Join d.Path n) ""
        (Attr.mk (inodeForPath proxy.toProxyState (sys.Join d.Path n)).1 ModeDir)), ?_, rfl⟩
      simp [Directory.Lookup, hLookup, DefaultLookup, hs, dirAttrsForPath]

/-- C10: on a `Proxy` whose `List` and `Lookup` slots hold the defaults, for a directory node
`d`, listing and lookup agree on identifiers, in either order and whatever registry calls
`others` are made in between (the file system may change between the two calls, `path.Join`
does not).  If `d.ReadDir` succeeds and a child it reported still stats later, `d.Lookup` of
that child's name returns a node whose identifier is the one of the reported entry.  If
`d.Lookup n` succeeds and `d.ReadDir` succeeds later, every entry it reports under the name
`n` carries the identifier of the node looked up. -/
theorem ReadDir_Lookup_agree (sys1 sys2 : Sys) (proxy : Proxy) (d : Directory)
    (others : List String) (i1 i2 : Intr)
    (hList : proxy.List = DefaultList) (hLookup : proxy.Lookup = DefaultLookup)
    (hJoin : sys2.Join = sys1.Join) :
    (∀ (entries : List Dirent) (proxy1 : Proxy) (e : Dirent),
      Directory.ReadDir sys1 proxy d i1 = some (Except.ok entries, proxy1) →
      e ∈ entries →
      sys2.Stat (sys2.Join d.Path e.Name) ≠ none →
      ∃ (node : Node) (proxy2 : Proxy),
        Directory.Lookup sys2 (proxy1.withState (runCalls proxy1.toProxyState others)) d
          e.Name i2 = some (Except.ok node, proxy2) ∧
        (Node.Attr node).Inode = e.Inode) ∧
    (∀ (n : String) (node : Node) (proxy1 : Proxy) (entries : List Dirent) (proxy2 : Proxy)
      (e : Dirent),
      Directory.Lookup sys1 proxy d n i1 = some (Except.ok node, proxy1) →
      Directory.ReadDir sys2 (proxy1.withState (runCalls proxy1.toProxyState others)) d i2 =
        some (Except.ok entries, proxy2) →
      e ∈ entries → e.Name = n → e.Inode = (Node.Attr node).Inode) := by
  constructor
  · intro entries proxy1 e hread he hstat
    simp only [Directory.ReadDir, hList, Option.map_eq_some', Prod.mk.injEq] at hread
    obtain ⟨r, hr, hr1, hr2⟩ := hread
    obtain ⟨res, s1⟩ := r
    simp only at hr1 hr2
    subst hr1 hr2
    obtain ⟨names, hloop⟩ := DefaultList_ok sys1 _ d.Path entries s1 hr
    have hin := listLoop_inodes sys1 d.Path names _ [] entries s1 (by simp) hloop e he
    have hkeep := runCalls_keeps others s1 _ _ hin
    rw [← hJoin] at hkeep
    have hknown := inodeForPath_known _ _ _ hkeep
    obtain ⟨node, hnode, hattr⟩ := Directory_Lookup_default sys2
      ((proxy.withState s1).withState (runCalls (proxy.withState s1).toProxyState others))
      d e.Name i2 hLookup hstat
    refine ⟨node, _, hnode, ?_⟩
    rw [hattr]
    simp only [Proxy.withState]
    rw [hknown]
  · intro n node proxy1 entries proxy2 e hlook hread he hname
    simp only [Directory.Lookup, hLookup, Option.map_eq_some', Prod.mk.injEq] at hlook
    obtain ⟨r, hr, hr1, hr2⟩ := hlook
    obtain ⟨res, s1⟩ := r
    simp only at hr1 hr2
    subst hr1 hr2
    obtain ⟨hnode, hs1⟩ := DefaultLookup_inode sys1 _ _ i1 node s1 hr
    have hget : mapGet s1.inodes (sys1.Join d.Path n) = some (Node.Attr node).Inode := by
      rw [hs1, hnode]
      exact inodeForPath_get _ _
    have hkeep := runCalls_keeps others s1 _ _ hget
    simp only [Directory.ReadDir, Proxy.withState, hList, Option.map_eq_some',
      Prod.mk.injEq] at hread
    obtain ⟨r2, hr2, hr3, hr4⟩ := hread
    obtain ⟨res2, s2⟩ := r2
    simp only at hr3 hr4
    subst hr3
    obtain ⟨names, hloop⟩ := DefaultList_ok sys2 _ d.Path entries s2 hr2
    have hin := listLoop_inodes sys2 d.Path names _ [] entries s2 (by simp) hloop e he
    have hk2 := listLoop_keeps sys2 d.Path names _ [] _ _ hkeep
    rw [hloop] at hk2
    rw [hname, hJoin] at hin
    simp only at hk2
    rw [hin] at hk2
    exact Option.some.inj hk2

/-- Witness of `ReadDir_Lookup_agree`: in the example tree, `Root` returns the node of
`/src`; its `ReadDir` reports `sub` with identifier 13; after a registry call for another
path, `Lookup` of `sub` returns a node with identifier 13. -/
theorem ReadDir_Lookup_agree_witness :
    (Proxy.Root (New 0 "/mnt" "/src")).1 = Except.ok (Node.Directory srcDir) ∧
    (Directory.ReadDir exampleSys rootedProxy srcDir false).map Prod.fst =
      some (Except.ok
        [{ Inode := 12, Name := "a.txt", Typ := DirentType.DT_Unknown },
         { Inode := 13, Name := "sub", Typ := DirentType.DT_Dir }]) ∧
    ∃ (node : Node) (proxy2 : Proxy),
      Directory.Lookup exampleSys
        ((rootedProxy.withState
            (afterCalls 0 "/mnt" "/src" ["/src", "/src/a.txt", "/src/sub"])).withState
          (runCalls (afterCalls 0 "/mnt" "/src" ["/src", "/src/a.txt", "/src/sub"])
            ["/src/sub/b.txt"]))
        srcDir "sub" false = some (Except.ok node, proxy2) ∧
      (Node.Attr node).Inode = 13 :=
  ⟨rfl, rfl,
   (ReadDir_Lookup_agree exampleSys exampleSys rootedProxy srcDir ["/src/sub/b.txt"] false
      false rfl rfl rfl).1
      [{ Inode := 12, Name := "a.txt", Typ := DirentType.DT_Unknown },
       { Inode := 13, Name := "sub", Typ := DirentType.DT_Dir }]
      (rootedProxy.withState (afterCalls 0 "/mnt" "/src" ["/src", "/src/a.txt", "/src/sub"]))
      { Inode := 13, Name := "sub", Typ := DirentType.DT_Dir }
      rfl (by decide) (by decide)⟩

end FsProxy
